import Mathlib

/-!
Verification of the `AsyncEventEmitter` engine (src/unnamed/part_000, "emitter.ts").

Shallow embedding:
* JS values are modelled by the inductive `JSVal`; `isArray` mirrors the
  `isArray` predicate used by `_emitReduceRun`.
* A listener is a function from an argument list to a `PResult`: either a
  synchronous throw, or a promise that settles at an explicit time stamp
  (a natural number) with an `Except` outcome.  Settle times model the
  real-time order in which concurrently running promises settle; they are
  irrelevant for the sequential strategies, whose semantics only chain
  outcomes.
* `Promise.all` is modelled by `pAll`: it resolves with the values in list
  order when no entry rejects, and otherwise rejects with the rejection of
  minimal settle time (ties broken towards the earlier index, matching how
  `Promise.all` attaches its handlers in index order to already-settled
  promises).
* The concurrency limiter is kept opaque: the engine state records the
  capacity argument handed to the gate constructor (`limiter` field); the
  gate's internal scheduling is an external collaborator.
-/

inductive JSVal where
  | num (n : Int)
  | str (s : String)
  | arr (xs : List JSVal)
  | undef

/-- `isArray` from `@unwanted/common`: true exactly on array values. -/
def isArray : JSVal → Bool
  | JSVal.arr _ => true
  | _ => false

/-- A listener invocation result: it either throws synchronously, or returns
a value / promise; `promise t r` settles at time `t` with outcome `r`
(a plain returned value `v` is `promise 0 (.ok v)`, matching
`Promise.resolve(listener(...args))`). -/
inductive PResult where
  | syncThrow (e : JSVal)
  | promise (t : Nat) (r : Except JSVal JSVal)

/-- A listener: a reference identity `lid` plus its behaviour on an
argument list. -/
structure Listener where
  lid : Nat
  run : List JSVal → PResult

/-- `AsyncEventEmitter._executeListener` (no gate configured): a synchronous
throw is converted into an (immediately settled) rejected promise, a
returned value or promise is passed through. -/
def executeListener (l : Listener) (args : List JSVal) : Nat × Except JSVal JSVal :=
  match l.run args with
  | PResult.syncThrow e => (0, Except.error e)
  | PResult.promise t r => (t, r)

/-- The outcome component of `_executeListener`, used by the sequential
strategies (where settle times do not affect the aggregate value). -/
def execOutcome (l : Listener) (args : List JSVal) : Except JSVal JSVal :=
  (executeListener l args).2

/-- Among the settled promises, the rejection that settles first in real
time: minimal settle time, ties broken towards the earlier index. -/
def firstRejection : List (Nat × Except JSVal JSVal) → Option (Nat × JSVal)
  | [] => none
  | (t, Except.error e) :: rest =>
    match firstRejection rest with
    | none => some (t, e)
    | some (t', e') => if t' < t then some (t', e') else some (t, e)
  | (_, Except.ok _) :: rest => firstRejection rest

/-- `Promise.all`: resolves with the values in index order when no entry
rejects; otherwise rejects with the first rejection to settle in real
time. -/
def pAll (ps : List (Nat × Except JSVal JSVal)) : Except JSVal (List JSVal) :=
  match firstRejection ps with
  | some (_, e) => Except.error e
  | none => Except.ok (ps.filterMap fun p => p.2.toOption)

/-- `AsyncEventEmitter.emitParallel`: start every listener (through
`_executeListener`) with the same `args`, then `Promise.all`. -/
def emitParallel (ls : List Listener) (args : List JSVal) : Except JSVal (List JSVal) :=
  pAll (ls.map fun l => executeListener l args)

/-- `AsyncEventEmitter.emitSerial`: `listeners.reduce` chaining each
listener after the previous promise, pushing each value onto the
accumulated list; every invocation receives the original `args`. -/
def emitSerial (ls : List Listener) (args : List JSVal) : Except JSVal (List JSVal) :=
  ls.foldl
    (fun promise listener =>
      promise.bind fun values =>
        (execOutcome listener args).map fun value => values ++ [value])
    (Except.ok [])

/-- The argument list handed to the next listener of a reduction chain:
`isArray(prevArgs) ? prevArgs : [prevArgs]`. -/
def toArgs (v : JSVal) : List JSVal :=
  if isArray v then
    match v with
    | JSVal.arr xs => xs
    | _ => []
  else [v]

/-- `AsyncEventEmitter._emitReduceRun`: reduce over the (possibly reversed)
listener list, threading the previous outcome into the next invocation,
starting from the original `args` array. -/
def emitReduceRun (ls : List Listener) (args : List JSVal) (inverse : Bool) :
    Except JSVal JSVal :=
  let listeners := if inverse then ls.reverse else ls
  listeners.foldl
    (fun promise listener =>
      promise.bind fun prevArgs => execOutcome listener (toArgs prevArgs))
    (Except.ok (JSVal.arr args))

/-- `AsyncEventEmitter.emitReduce`. -/
def emitReduce (ls : List Listener) (args : List JSVal) : Except JSVal JSVal :=
  emitReduceRun ls args false

/-- `AsyncEventEmitter.emitReduceRight`. -/
def emitReduceRight (ls : List Listener) (args : List JSVal) : Except JSVal JSVal :=
  emitReduceRun ls args true

/-- Head-recursive reduction chain, stating the threading rule of the spec:
the next listener receives the previous accumulator via `toArgs`, the
chain stops at the first failure, and an empty chain returns the
accumulator unchanged. -/
def reduceChainSpec (ls : List Listener) (acc : JSVal) : Except JSVal JSVal :=
  match ls with
  | [] => Except.ok acc
  | l :: rest => (execOutcome l (toArgs acc)).bind fun v => reduceChainSpec rest v

/-- Reduction chain instrumented with the trace of invoked listener ids, in
invocation order. -/
def reduceChainT (ls : List Listener) (acc : JSVal) :
    List Nat × Except JSVal JSVal :=
  match ls with
  | [] => ([], Except.ok acc)
  | l :: rest =>
    match execOutcome l (toArgs acc) with
    | Except.error e => ([l.lid], Except.error e)
    | Except.ok v =>
      let next := reduceChainT rest v
      (l.lid :: next.1, next.2)

/-- Head-recursive serial chain, stating the sequencing rule of the spec:
every listener is invoked with the original `args`, the next listener
only after the previous outcome is settled successfully, and the chain
stops at the first failure. -/
def serialSpec (ls : List Listener) (args : List JSVal) : Except JSVal (List JSVal) :=
  match ls with
  | [] => Except.ok []
  | l :: rest =>
    (execOutcome l args).bind fun v => (serialSpec rest args).map fun vs => v :: vs

/-- Serial run instrumented with the trace of invoked listener ids, in
invocation order. -/
def emitSerialT (ls : List Listener) (args : List JSVal) :
    List Nat × Except JSVal (List JSVal) :=
  match ls with
  | [] => ([], Except.ok [])
  | l :: rest =>
    match execOutcome l args with
    | Except.error e => ([l.lid], Except.error e)
    | Except.ok v =>
      let next := emitSerialT rest args
      (l.lid :: next.1, next.2.map fun vs => v :: vs)

/-!
Once-listener identity tracking (`once`, `removeListener`, `subscribe`).

Function references are modelled by `Ref`: `Ref.user n` is a listener
reference held by client code, `Ref.wrapper n` is the fresh wrapper
function allocated by the `n`-th call to `once` (client code never holds a
wrapper reference, so trace operations take user references only).  The
registry is the base `EventEmitter` listener store: a flat list of
(event, reference) pairs in registration order; Node's
`EventEmitter.removeListener` removes the last matching occurrence.
`onceMap` is the `Map` from original listener references to wrappers,
modelled as an association list with JS `Map` semantics (set replaces in
place, delete removes the entry).
-/

inductive Ref where
  | user (n : Nat)
  | wrapper (n : Nat)
deriving DecidableEq, Repr

/-- `Map.prototype.get`: the value of the first (and, keys being unique,
only) entry with the given key. -/
def mapGet : List (Ref × Nat) → Ref → Option Nat
  | [], _ => none
  | p :: rest, r => if p.1 = r then some p.2 else mapGet rest r

/-- `Map.prototype.set`: replace in place, or append a new entry. -/
def mapSet : List (Ref × Nat) → Ref → Nat → List (Ref × Nat)
  | [], r, w => [(r, w)]
  | p :: rest, r, w => if p.1 = r then (r, w) :: rest else p :: mapSet rest r w

/-- `Map.prototype.delete`. -/
def mapDel : List (Ref × Nat) → Ref → List (Ref × Nat)
  | [], _ => []
  | p :: rest, r => if p.1 = r then rest else p :: mapDel rest r

/-- Remove the last occurrence of `(e, r)` (Node `removeListener` removes
the most recently added matching listener). -/
def removeFirstOcc : List (Nat × Ref) → Nat → Ref → List (Nat × Ref)
  | [], _, _ => []
  | p :: rest, e, r => if p = (e, r) then rest else p :: removeFirstOcc rest e r

def removeLastOcc (reg : List (Nat × Ref)) (e : Nat) (r : Ref) : List (Nat × Ref) :=
  (removeFirstOcc reg.reverse e r).reverse

/-- The mutable state of an `AsyncEventEmitter` relevant to once-tracking:
the base registry, the `onceMap`, the set of wrappers whose `fired` flag
is true, and the allocator for fresh wrapper references. -/
structure EmState where
  registry : List (Nat × Ref)
  onceMap : List (Ref × Nat)
  fired : List Nat
  nextWrapper : Nat
deriving Repr

def emptyEmState : EmState := ⟨[], [], [], 0⟩

/-- `EventEmitter.on`: append the listener to the registry. -/
def onAdd (st : EmState) (e : Nat) (r : Ref) : EmState :=
  { st with registry := st.registry ++ [(e, r)] }

/-- `AsyncEventEmitter.removeListener`: if the reference is an `onceMap`
key, delete the mapping entry and remove the wrapper from the registry;
otherwise remove the reference itself. -/
def removeListener (st : EmState) (e : Nat) (r : Ref) : EmState :=
  match mapGet st.onceMap r with
  | some w =>
    { st with
      onceMap := mapDel st.onceMap r
      registry := removeLastOcc st.registry e (Ref.wrapper w) }
  | none => { st with registry := removeLastOcc st.registry e r }

/-- `AsyncEventEmitter.once` (with a callable listener): allocate a fresh
wrapper, register the wrapper via `on`, record original ↦ wrapper in the
`onceMap`. -/
def onceAdd (st : EmState) (e : Nat) (r : Ref) : EmState :=
  let w := st.nextWrapper
  let st1 := onAdd st e (Ref.wrapper w)
  { st1 with onceMap := mapSet st1.onceMap r w, nextWrapper := w + 1 }

/-- The state effect of the wrapper body when the wrapper `w` is invoked for
event `e`: `self.removeListener(event, onceListener)` — note the argument
is the *wrapper*, not the original — then, if the `fired` flag is unset,
set it (and invoke the original listener, which does not touch this
state). -/
def fireWrapper (st : EmState) (e : Nat) (w : Nat) : EmState :=
  let st1 := removeListener st e (Ref.wrapper w)
  if w ∈ st1.fired then st1 else { st1 with fired := w :: st1.fired }

/-- `AsyncEventEmitter.subscribe`: register via the once-path or plain `on`;
the returned unsubscribe handle runs `removeListener` on the same pair. -/
def subscribeAdd (st : EmState) (e : Nat) (r : Ref) (once : Bool) : EmState :=
  if once then onceAdd st e r else onAdd st e r

/-- Client-visible operations on one engine instance.  `on`, `once` and
`remove` carry user listener references; `fire` is the invocation of a
registered wrapper during an emission. -/
inductive EOp where
  | plain (e : Nat) (u : Nat)
  | once (e : Nat) (u : Nat)
  | sub (e : Nat) (u : Nat) (once : Bool)
  | remove (e : Nat) (u : Nat)
  | fire (e : Nat) (w : Nat)

def execOp (st : EmState) : EOp → EmState
  | EOp.plain e u => onAdd st e (Ref.user u)
  | EOp.once e u => onceAdd st e (Ref.user u)
  | EOp.sub e u o => subscribeAdd st e (Ref.user u) o
  | EOp.remove e u => removeListener st e (Ref.user u)
  | EOp.fire e w => fireWrapper st e w

def execOps (ops : List EOp) : EmState := ops.foldl execOp emptyEmState

/-- Spec-side description of when a user listener reference has a live
`onceMap` entry: it was registered via the once-path and not since
removed via `removeListener` with that reference (note: *firing* does not
appear here — the amended invariant). -/
def specStep (u : Nat) (b : Bool) : EOp → Bool
  | EOp.once _ u' => if u' = u then true else b
  | EOp.sub _ u' o => if o ∧ u' = u then true else b
  | EOp.remove _ u' => if u' = u then false else b
  | _ => b

def specOnceEntry (ops : List EOp) (u : Nat) : Bool :=
  ops.foldl (specStep u) false

/-!
Concurrency configuration (`setConcurrency` and the constructor).

A JS number argument is modelled as a rational (`ℚ` covers every finite
double, in particular the non-integer `3/2`); `none` models a non-number
or absent argument.  The gate itself is opaque: the state records the
capacity argument handed to the gate constructor.
-/

structure EmitterCfg where
  limiter : Option ℚ
deriving Repr, DecidableEq

/-- `AsyncEventEmitter.setConcurrency`: install a new gate exactly when the
argument is a number `>= 1`; otherwise leave the state unchanged.  The
method returns `this`; the model returns the updated state. -/
def setConcurrency (st : EmitterCfg) (c : Option ℚ) : EmitterCfg :=
  match c with
  | some q => if 1 ≤ q then { limiter := some q } else st
  | none => st

/-- The constructor: starts with no gate and forwards a number `>= 1` to
`setConcurrency` (the guard is repeated in the source; the net effect is
one `setConcurrency` call on the fresh state). -/
def mkEmitter (c : Option ℚ) : EmitterCfg :=
  setConcurrency { limiter := none } c

/-! ### Fold-to-chain lemmas for the sequential strategies -/

theorem foldl_reduce_bind (ls : List Listener) (p : Except JSVal JSVal) :
    ls.foldl
      (fun promise listener =>
        promise.bind fun prevArgs => execOutcome listener (toArgs prevArgs)) p
      = p.bind fun acc => reduceChainSpec ls acc := by
  induction ls generalizing p with
  | nil => cases p <;> rfl
  | cons l rest ih =>
    simp only [List.foldl_cons, ih]
    cases p with
    | error e => rfl
    | ok a => rfl

theorem emitReduce_eq_chain (ls : List Listener) (args : List JSVal) :
    emitReduce ls args = reduceChainSpec ls (JSVal.arr args) := by
  have h := foldl_reduce_bind ls (Except.ok (JSVal.arr args))
  simpa [emitReduce, emitReduceRun] using h

theorem emitReduceRight_eq_chain (ls : List Listener) (args : List JSVal) :
    emitReduceRight ls args = reduceChainSpec ls.reverse (JSVal.arr args) := by
  have h := foldl_reduce_bind ls.reverse (Except.ok (JSVal.arr args))
  simpa [emitReduceRight, emitReduceRun] using h

theorem foldl_serial_bind (ls : List Listener) (args : List JSVal)
    (p : Except JSVal (List JSVal)) :
    ls.foldl
      (fun promise listener =>
        promise.bind fun values =>
          (execOutcome listener args).map fun value => values ++ [value]) p
      = p.bind fun vs => (serialSpec ls args).map fun ws => vs ++ ws := by
  induction ls generalizing p with
  | nil =>
    cases p with
    | error e => rfl
    | ok vs => simp [serialSpec, Except.map, Except.bind]
  | cons l rest ih =>
    simp only [List.foldl_cons, ih]
    cases p with
    | error e => rfl
    | ok vs =>
      cases h : execOutcome l args with
      | error e => simp [serialSpec, h, Except.map, Except.bind]
      | ok v =>
        cases h2 : serialSpec rest args with
        | error e => simp [serialSpec, h, h2, Except.map, Except.bind]
        | ok ws => simp [serialSpec, h, h2, Except.map, Except.bind]

theorem emitSerial_eq_spec (ls : List Listener) (args : List JSVal) :
    emitSerial ls args = serialSpec ls args := by
  have h := foldl_serial_bind ls args (Except.ok [])
  rw [emitSerial, h]
  cases h2 : serialSpec ls args <;> simp [Except.map, Except.bind]

theorem reduceChainT_snd (ls : List Listener) (acc : JSVal) :
    (reduceChainT ls acc).2 = reduceChainSpec ls acc := by
  induction ls generalizing acc with
  | nil => rfl
  | cons l rest ih =>
    cases h : execOutcome l (toArgs acc) with
    | error e => simp [reduceChainT, reduceChainSpec, h, Except.bind]
    | ok v => simp [reduceChainT, reduceChainSpec, h, Except.bind, ih]

theorem emitSerialT_snd (ls : List Listener) (args : List JSVal) :
    (emitSerialT ls args).2 = serialSpec ls args := by
  induction ls with
  | nil => rfl
  | cons l rest ih =>
    cases h : execOutcome l args with
    | error e => simp [emitSerialT, serialSpec, h, Except.bind]
    | ok v => simp [emitSerialT, serialSpec, h, Except.bind, ih]

theorem reduceChainSpec_append (xs ys : List Listener) (acc : JSVal) :
    reduceChainSpec (xs ++ ys) acc
      = (reduceChainSpec xs acc).bind fun v => reduceChainSpec ys v := by
  induction xs generalizing acc with
  | nil => rfl
  | cons x xs ih =>
    cases h : execOutcome x (toArgs acc) with
    | error e => simp [reduceChainSpec, h, Except.bind]
    | ok v => simp [reduceChainSpec, h, Except.bind, ih]

theorem reduceChainT_append_ok (xs ys : List Listener) (acc v : JSVal) (tr : List Nat)
    (h : reduceChainT xs acc = (tr, Except.ok v)) :
    reduceChainT (xs ++ ys) acc
      = (tr ++ (reduceChainT ys v).1, (reduceChainT ys v).2) := by
  induction xs generalizing acc tr with
  | nil =>
    rw [reduceChainT] at h
    injection h with h1 h2
    injection h2 with h3
    subst h1
    subst h3
    simp
  | cons x xs ih =>
    cases hx : execOutcome x (toArgs acc) with
    | error e => simp [reduceChainT, hx] at h
    | ok w =>
      rw [reduceChainT] at h
      simp only [hx] at h
      injection h with h1 h2
      have hxs : reduceChainT xs w = ((reduceChainT xs w).1, Except.ok v) := by
        rw [← h2]
      have ihh := ih w (reduceChainT xs w).1 hxs
      rw [List.cons_append, reduceChainT]
      simp only [hx, ihh, ← h1]
      simp

/-! ### Lemmas on the `Promise.all` rejection race -/

theorem firstRejection_none (ps : List (Nat × Except JSVal JSVal))
    (h : firstRejection ps = none) :
    ∀ t e, (t, Except.error e) ∈ ps → False := by
  induction ps with
  | nil => simp
  | cons p rest ih =>
    obtain ⟨tp, rp⟩ := p
    cases rp with
    | ok v =>
      intro t e hm
      rcases List.mem_cons.mp hm with heq | hm'
      · injection heq with h1 h2
        cases h2
      · exact ih (by simpa [firstRejection] using h) t e hm'
    | error ep =>
      exfalso
      rw [firstRejection] at h
      cases h2 : firstRejection rest with
      | none => rw [h2] at h; simp at h
      | some q => rw [h2] at h; obtain ⟨tq, eq'⟩ := q; by_cases hlt : tq < tp <;> simp [hlt] at h

theorem firstRejection_mem (ps : List (Nat × Except JSVal JSVal)) (t : Nat) (e : JSVal)
    (h : firstRejection ps = some (t, e)) : (t, Except.error e) ∈ ps := by
  induction ps generalizing t e with
  | nil => simp [firstRejection] at h
  | cons p rest ih =>
    obtain ⟨tp, rp⟩ := p
    cases rp with
    | ok v =>
      rw [firstRejection] at h
      exact List.mem_cons_of_mem _ (ih t e h)
    | error ep =>
      rw [firstRejection] at h
      cases h2 : firstRejection rest with
      | none =>
        rw [h2] at h
        injection h with h1
        injection h1 with ht he
        subst ht; subst he
        exact List.mem_cons_self _ _
      | some q =>
        obtain ⟨tq, eq'⟩ := q
        rw [h2] at h
        by_cases hlt : tq < tp
        · simp only [hlt, if_true] at h
          injection h with h1
          injection h1 with ht he
          subst ht; subst he
          exact List.mem_cons_of_mem _ (ih _ _ h2)
        · simp only [hlt, if_false] at h
          injection h with h1
          injection h1 with ht he
          subst ht; subst he
          exact List.mem_cons_self _ _

theorem firstRejection_min (ps : List (Nat × Except JSVal JSVal)) (t : Nat) (e : JSVal)
    (h : firstRejection ps = some (t, e)) :
    ∀ t' e', (t', Except.error e') ∈ ps → t ≤ t' := by
  induction ps generalizing t e with
  | nil => simp [firstRejection] at h
  | cons p rest ih =>
    obtain ⟨tp, rp⟩ := p
    intro t' e' hmem
    cases rp with
    | ok v =>
      rw [firstRejection] at h
      rcases List.mem_cons.mp hmem with heq | hm'
      · injection heq with h1 h2; cases h2
      · exact ih t e h t' e' hm'
    | error ep =>
      rw [firstRejection] at h
      cases h2 : firstRejection rest with
      | none =>
        rw [h2] at h
        injection h with h1
        injection h1 with ht he
        subst ht; subst he
        rcases List.mem_cons.mp hmem with heq | hm'
        · injection heq with h1 h2
          omega
        · exact absurd hm' (fun hm'' => firstRejection_none rest h2 t' e' hm'')
      | some q =>
        obtain ⟨tq, eq'⟩ := q
        rw [h2] at h
        by_cases hlt : tq < tp
        · simp only [hlt, if_true] at h
          injection h with h1
          injection h1 with ht he
          subst ht; subst he
          rcases List.mem_cons.mp hmem with heq | hm'
          · injection heq with h1 h2
            omega
          · exact ih _ _ h2 t' e' hm'
        · simp only [hlt, if_false] at h
          injection h with h1
          injection h1 with ht he
          subst ht; subst he
          rcases List.mem_cons.mp hmem with heq | hm'
          · injection heq with h1 h2
            omega
          · have := ih _ _ h2 t' e' hm'
            omega

theorem firstRejection_isSome (ps : List (Nat × Except JSVal JSVal)) (t : Nat) (e : JSVal)
    (h : (t, Except.error e) ∈ ps) : ∃ q, firstRejection ps = some q := by
  cases h2 : firstRejection ps with
  | none => exact absurd h (fun hm => firstRejection_none ps h2 t e hm)
  | some q => exact ⟨q, rfl⟩

theorem chain_last_result (xs : List Listener) (lst : Listener) (acc v : JSVal)
    (h : reduceChainSpec (xs ++ [lst]) acc = Except.ok v) :
    ∃ prevArgs, execOutcome lst prevArgs = Except.ok v := by
  rw [reduceChainSpec_append] at h
  cases hc : reduceChainSpec xs acc with
  | error e => rw [hc] at h; cases h
  | ok w =>
    rw [hc] at h
    refine ⟨toArgs w, ?_⟩
    cases hl : execOutcome lst (toArgs w) with
    | error e => simp [reduceChainSpec, hl, Except.bind] at h
    | ok u =>
      simp only [reduceChainSpec, hl, Except.bind] at h
      injection h with h1
      rw [h1]

theorem serialSpec_all_ok (ls : List Listener) (args : List JSVal) (vs : List JSVal)
    (h : List.Forall₂ (fun l v => execOutcome l args = Except.ok v) ls vs) :
    serialSpec ls args = Except.ok vs := by
  induction h with
  | nil => rfl
  | cons hlv hrest ih => simp [serialSpec, hlv, ih, Except.bind, Except.map]

theorem serialT_fail (pre : List Listener) (bad : Listener) (post : List Listener)
    (args : List JSVal) (e : JSVal)
    (hpre : ∀ l ∈ pre, ∃ v, execOutcome l args = Except.ok v)
    (hbad : execOutcome bad args = Except.error e) :
    emitSerialT (pre ++ bad :: post) args
      = ((pre ++ [bad]).map Listener.lid, Except.error e) := by
  induction pre with
  | nil => simp [emitSerialT, hbad]
  | cons l pre ih =>
    obtain ⟨v, hv⟩ := hpre l (List.mem_cons_self _ _)
    have ihh := ih fun x hx => hpre x (List.mem_cons_of_mem _ hx)
    simp [emitSerialT, hv, ihh, Except.map]

/-- C10: for an event with zero registered listeners, `emitParallel` and
`emitSerial` both resolve to the empty list, for every argument tuple. -/
theorem emit_no_listeners_resolves_empty :
    ∀ args : List JSVal,
      emitParallel [] args = Except.ok [] ∧ emitSerial [] args = Except.ok [] :=
  fun _ => ⟨rfl, rfl⟩

/-- C5: `emitReduce` runs the listeners in registration order and
`emitReduceRight` in reverse registration order, threading the previous
result into the next argument list via the array-spreading rule encoded
in `reduceChainSpec` (an array is spread as the argument list, any other
value is passed as the sole argument, the first listener receives the
original `args` tuple); with zero listeners the call resolves to the
original `args` tuple, in particular `emitReduce "noop"` resolves to `[]`
and `emitReduce "noop" 1` resolves to `[1]`. -/
theorem emitReduce_threading_and_empty_identity :
    (∀ (ls : List Listener) (args : List JSVal),
        emitReduce ls args = reduceChainSpec ls (JSVal.arr args)) ∧
    (∀ (ls : List Listener) (args : List JSVal),
        emitReduceRight ls args = reduceChainSpec ls.reverse (JSVal.arr args)) ∧
    (∀ args : List JSVal,
        emitReduce [] args = Except.ok (JSVal.arr args) ∧
        emitReduceRight [] args = Except.ok (JSVal.arr args)) ∧
    emitReduce [] [] = Except.ok (JSVal.arr []) ∧
    emitReduce [] [JSVal.num 1] = Except.ok (JSVal.arr [JSVal.num 1]) :=
  ⟨emitReduce_eq_chain, emitReduceRight_eq_chain, fun _ => ⟨rfl, rfl⟩, rfl, rfl⟩

/-- C6: when a reduction call with at least one listener resolves, the value
it resolves to is exactly what the last listener in the iteration order
returned (the last registered listener for `emitReduce`, the first
registered one for `emitReduceRight`), applied to the threaded argument
list it received. -/
theorem emitReduce_final_accumulator_is_last_result :
    (∀ (most : List Listener) (lst : Listener) (args : List JSVal) (v : JSVal),
        emitReduce (most ++ [lst]) args = Except.ok v →
        ∃ prevArgs, execOutcome lst prevArgs = Except.ok v) ∧
    (∀ (fst : Listener) (rest : List Listener) (args : List JSVal) (v : JSVal),
        emitReduceRight (fst :: rest) args = Except.ok v →
        ∃ prevArgs, execOutcome fst prevArgs = Except.ok v) := by
  constructor
  · intro most lst args v h
    rw [emitReduce_eq_chain] at h
    exact chain_last_result most lst _ v h
  · intro fst rest args v h
    rw [emitReduceRight_eq_chain, List.reverse_cons] at h
    exact chain_last_result rest.reverse fst _ v h

/-- C6 witness: a two-listener chain where the second (last-registered)
listener returns the number `42` it computed from the first listener's
result; `emitReduce` resolves to `42`, and `emitReduceRight` on the same
list resolves to what the first-registered listener returns. -/
theorem emitReduce_final_accumulator_witness :
    (∃ prevArgs,
        execOutcome ⟨2, fun _ => PResult.promise 0 (Except.ok (JSVal.num 42))⟩ prevArgs
          = Except.ok (JSVal.num 42)) ∧
    (∃ prevArgs,
        execOutcome ⟨1, fun _ => PResult.promise 0 (Except.ok (JSVal.num 7))⟩ prevArgs
          = Except.ok (JSVal.num 7)) :=
  ⟨emitReduce_final_accumulator_is_last_result.1
      [⟨1, fun _ => PResult.promise 0 (Except.ok (JSVal.num 7))⟩]
      ⟨2, fun _ => PResult.promise 0 (Except.ok (JSVal.num 42))⟩ [] (JSVal.num 42) rfl,
   emitReduce_final_accumulator_is_last_result.2
      ⟨1, fun _ => PResult.promise 0 (Except.ok (JSVal.num 7))⟩
      [⟨2, fun _ => PResult.promise 0 (Except.ok (JSVal.num 42))⟩] [] (JSVal.num 7) rfl⟩

/-- C7: `emitSerial` invokes every listener with the same original `args`
(the chain never threads results between listeners, as stated by the
`serialSpec` characterization, which also sequences each listener after
the previous outcome), and when all listeners succeed it resolves to the
list of their results in registration order. -/
theorem emitSerial_original_args_and_order :
    (∀ (ls : List Listener) (args : List JSVal),
        emitSerial ls args = serialSpec ls args) ∧
    (∀ (ls : List Listener) (args : List JSVal) (vs : List JSVal),
        List.Forall₂ (fun l v => execOutcome l args = Except.ok v) ls vs →
        emitSerial ls args = Except.ok vs) := by
  refine ⟨emitSerial_eq_spec, fun ls args vs h => ?_⟩
  rw [emitSerial_eq_spec]
  exact serialSpec_all_ok ls args vs h

/-- C7 witness: two successful listeners; `emitSerial` resolves to their
results in registration order. -/
theorem emitSerial_original_args_witness :
    emitSerial
      [⟨1, fun _ => PResult.promise 3 (Except.ok (JSVal.num 7))⟩,
       ⟨2, fun _ => PResult.promise 1 (Except.ok (JSVal.num 8))⟩]
      [JSVal.num 0]
      = Except.ok [JSVal.num 7, JSVal.num 8] :=
  emitSerial_original_args_and_order.2 _ [JSVal.num 0] _
    (List.Forall₂.cons rfl (List.Forall₂.cons rfl List.Forall₂.nil))

/-- C4: when all listeners succeed, `emitParallel` resolves to the list of
their results in registration order, whatever the settle times of the
individual promises are (in particular when an earlier-registered
listener completes after a later-registered one). -/
theorem emitParallel_resolves_in_registration_order :
    ∀ (ls : List Listener) (args : List JSVal) (vs : List JSVal),
      List.Forall₂ (fun l v => ∃ t, executeListener l args = (t, Except.ok v)) ls vs →
      emitParallel ls args = Except.ok vs := by
  intro ls args vs h
  induction h with
  | nil => rfl
  | @cons l v ls₁ vs₁ hlv hrest ih =>
    obtain ⟨t, ht⟩ := hlv
    rw [emitParallel, pAll] at ih ⊢
    rw [List.map_cons, ht]
    cases h2 : firstRejection (ls₁.map fun x => executeListener x args) with
    | some q => rw [h2] at ih; cases ih
    | none =>
      rw [h2] at ih
      injection ih with hfm
      have hfr : firstRejection ((t, Except.ok v) ::
          ls₁.map fun x => executeListener x args) = none := by
        rw [firstRejection]; exact h2
      simp only [Except.toOption] at hfm
      simp only [hfr, List.filterMap_cons, Except.toOption]
      rw [hfm]

/-- C4 witness: the first-registered listener settles at time 9, after the
second-registered listener settles at time 2; the result list is still in
registration order. -/
theorem emitParallel_registration_order_witness :
    emitParallel
      [⟨1, fun _ => PResult.promise 9 (Except.ok (JSVal.num 1))⟩,
       ⟨2, fun _ => PResult.promise 2 (Except.ok (JSVal.num 2))⟩]
      []
      = Except.ok [JSVal.num 1, JSVal.num 2] :=
  emitParallel_resolves_in_registration_order _ [] _
    (List.Forall₂.cons ⟨9, rfl⟩ (List.Forall₂.cons ⟨2, rfl⟩ List.Forall₂.nil))

/-- C3: if at least one listener of an `emitParallel` call fails (by
synchronous throw or rejected promise), the aggregate result is a single
rejection, carrying the error of an actually-failing underlying promise
whose settle time is minimal among all failing promises — the first
failure in real time, regardless of registration order; every other
failure is discarded. -/
theorem emitParallel_rejects_with_earliest_failure :
    ∀ (ls : List Listener) (args : List JSVal) (l : Listener) (t : Nat) (e : JSVal),
      l ∈ ls → executeListener l args = (t, Except.error e) →
      ∃ t' e',
        emitParallel ls args = Except.error e' ∧
        (t', Except.error e') ∈ ls.map (fun x => executeListener x args) ∧
        ∀ t'' e'', (t'', Except.error e'') ∈ ls.map (fun x => executeListener x args) →
          t' ≤ t'' := by
  intro ls args l t e hl ht
  have hmem : (t, Except.error e) ∈ ls.map (fun x => executeListener x args) := by
    rw [← ht]; exact List.mem_map_of_mem _ hl
  obtain ⟨⟨t', e'⟩, hq⟩ := firstRejection_isSome _ t e hmem
  refine ⟨t', e', ?_, firstRejection_mem _ _ _ hq, firstRejection_min _ _ _ hq⟩
  rw [emitParallel, pAll, hq]

/-- C3 witness: the earlier-registered listener fails at time 5, the
later-registered one at time 1; the surfaced rejection settles at a
minimal time among the failures (the time-1 one), not the
first-registered failure. -/
theorem emitParallel_earliest_failure_witness :
    ∃ t' e',
      emitParallel
        [⟨1, fun _ => PResult.promise 5 (Except.error (JSVal.str "late"))⟩,
         ⟨2, fun _ => PResult.promise 1 (Except.error (JSVal.str "early"))⟩]
        [] = Except.error e' ∧
      (t', Except.error e') ∈
        ([⟨1, fun _ => PResult.promise 5 (Except.error (JSVal.str "late"))⟩,
          ⟨2, fun _ => PResult.promise 1 (Except.error (JSVal.str "early"))⟩] :
            List Listener).map (fun x => executeListener x []) ∧
      ∀ t'' e'',
        (t'', Except.error e'') ∈
          ([⟨1, fun _ => PResult.promise 5 (Except.error (JSVal.str "late"))⟩,
            ⟨2, fun _ => PResult.promise 1 (Except.error (JSVal.str "early"))⟩] :
              List Listener).map (fun x => executeListener x []) →
          t' ≤ t'' :=
  emitParallel_rejects_with_earliest_failure _ []
    ⟨1, fun _ => PResult.promise 5 (Except.error (JSVal.str "late"))⟩ 5 (JSVal.str "late")
    (List.mem_cons_self _ _) rfl

/-- C8: for each sequential strategy (`emitSerial`, `emitReduce`,
`emitReduceRight`), when the listeners before position `k` in the
strategy's iteration order all succeed and the listener at position `k`
fails, the aggregate promise rejects with exactly that listener's error
and the invocation trace covers exactly the listeners up to and
including the failing one — no later listener in the iteration order is
ever invoked. -/
theorem sequential_strategies_stop_at_first_failure :
    (∀ (pre : List Listener) (bad : Listener) (post : List Listener)
        (args : List JSVal) (e : JSVal),
        (∀ l ∈ pre, ∃ v, execOutcome l args = Except.ok v) →
        execOutcome bad args = Except.error e →
        emitSerial (pre ++ bad :: post) args = Except.error e ∧
        emitSerialT (pre ++ bad :: post) args
          = ((pre ++ [bad]).map Listener.lid, Except.error e)) ∧
    (∀ (pre : List Listener) (bad : Listener) (post : List Listener)
        (args : List JSVal) (e : JSVal) (tr : List Nat) (acc : JSVal),
        reduceChainT pre (JSVal.arr args) = (tr, Except.ok acc) →
        execOutcome bad (toArgs acc) = Except.error e →
        emitReduce (pre ++ bad :: post) args = Except.error e ∧
        reduceChainT (pre ++ bad :: post) (JSVal.arr args)
          = (tr ++ [bad.lid], Except.error e)) ∧
    (∀ (ls pre : List Listener) (bad : Listener) (post : List Listener)
        (args : List JSVal) (e : JSVal) (tr : List Nat) (acc : JSVal),
        ls.reverse = pre ++ bad :: post →
        reduceChainT pre (JSVal.arr args) = (tr, Except.ok acc) →
        execOutcome bad (toArgs acc) = Except.error e →
        emitReduceRight ls args = Except.error e ∧
        reduceChainT ls.reverse (JSVal.arr args)
          = (tr ++ [bad.lid], Except.error e)) := by
  have hser : ∀ (pre : List Listener) (bad : Listener) (post : List Listener)
      (args : List JSVal) (e : JSVal),
      (∀ l ∈ pre, ∃ v, execOutcome l args = Except.ok v) →
      execOutcome bad args = Except.error e →
      emitSerial (pre ++ bad :: post) args = Except.error e ∧
      emitSerialT (pre ++ bad :: post) args
        = ((pre ++ [bad]).map Listener.lid, Except.error e) := by
    intro pre bad post args e hpre hbad
    have hT := serialT_fail pre bad post args e hpre hbad
    refine ⟨?_, hT⟩
    rw [emitSerial_eq_spec, ← emitSerialT_snd, hT]
  have hred : ∀ (pre : List Listener) (bad : Listener) (post : List Listener)
      (args : List JSVal) (e : JSVal) (tr : List Nat) (acc : JSVal),
      reduceChainT pre (JSVal.arr args) = (tr, Except.ok acc) →
      execOutcome bad (toArgs acc) = Except.error e →
      reduceChainT (pre ++ bad :: post) (JSVal.arr args)
        = (tr ++ [bad.lid], Except.error e) := by
    intro pre bad post args e tr acc hpre hbad
    have happ := reduceChainT_append_ok pre (bad :: post) (JSVal.arr args) acc tr hpre
    rw [happ]
    have hbp : reduceChainT (bad :: post) acc = ([bad.lid], Except.error e) := by
      rw [reduceChainT, hbad]
    rw [hbp]
  refine ⟨hser, fun pre bad post args e tr acc hpre hbad => ?_,
    fun ls pre bad post args e tr acc hrev hpre hbad => ?_⟩
  · have hT := hred pre bad post args e tr acc hpre hbad
    refine ⟨?_, hT⟩
    rw [emitReduce_eq_chain, ← reduceChainT_snd, hT]
  · have hT := hred pre bad post args e tr acc hpre hbad
    rw [hrev]
    refine ⟨?_, hT⟩
    rw [emitReduceRight_eq_chain, hrev, ← reduceChainT_snd, hT]

/-- C8 witness: concrete three-listener scenarios for each strategy in which
the middle listener of the iteration order fails; the run rejects with
that failure and the trace stops at the failing listener. -/
theorem sequential_stop_at_first_failure_witness :
    (emitSerial
        [⟨1, fun _ => PResult.promise 0 (Except.ok (JSVal.num 1))⟩,
         ⟨2, fun _ => PResult.syncThrow (JSVal.str "b")⟩,
         ⟨3, fun _ => PResult.promise 0 (Except.ok (JSVal.num 3))⟩] []
        = Except.error (JSVal.str "b") ∧
      emitSerialT
        [⟨1, fun _ => PResult.promise 0 (Except.ok (JSVal.num 1))⟩,
         ⟨2, fun _ => PResult.syncThrow (JSVal.str "b")⟩,
         ⟨3, fun _ => PResult.promise 0 (Except.ok (JSVal.num 3))⟩] []
        = ([1, 2], Except.error (JSVal.str "b"))) ∧
    (emitReduce
        [⟨1, fun _ => PResult.promise 0 (Except.ok (JSVal.num 5))⟩,
         ⟨2, fun _ => PResult.syncThrow (JSVal.str "c")⟩,
         ⟨3, fun _ => PResult.promise 0 (Except.ok (JSVal.num 3))⟩] []
        = Except.error (JSVal.str "c") ∧
      reduceChainT
        ([⟨1, fun _ => PResult.promise 0 (Except.ok (JSVal.num 5))⟩] ++
          ⟨2, fun _ => PResult.syncThrow (JSVal.str "c")⟩ ::
            [⟨3, fun _ => PResult.promise 0 (Except.ok (JSVal.num 3))⟩])
        (JSVal.arr [])
        = ([1, 2], Except.error (JSVal.str "c"))) ∧
    (emitReduceRight
        [⟨3, fun _ => PResult.promise 0 (Except.ok (JSVal.num 3))⟩,
         ⟨2, fun _ => PResult.syncThrow (JSVal.str "d")⟩,
         ⟨1, fun _ => PResult.promise 0 (Except.ok (JSVal.num 5))⟩] []
        = Except.error (JSVal.str "d") ∧
      reduceChainT
        ([⟨3, fun _ => PResult.promise 0 (Except.ok (JSVal.num 3))⟩,
          ⟨2, fun _ => PResult.syncThrow (JSVal.str "d")⟩,
          ⟨1, fun _ => PResult.promise 0 (Except.ok (JSVal.num 5))⟩] :
            List Listener).reverse
        (JSVal.arr [])
        = ([1, 2], Except.error (JSVal.str "d"))) := by
  refine ⟨?_, ?_, ?_⟩
  · have h := sequential_strategies_stop_at_first_failure.1
      [⟨1, fun _ => PResult.promise 0 (Except.ok (JSVal.num 1))⟩]
      ⟨2, fun _ => PResult.syncThrow (JSVal.str "b")⟩
      [⟨3, fun _ => PResult.promise 0 (Except.ok (JSVal.num 3))⟩] [] (JSVal.str "b")
      (by
        intro l hl
        rw [List.mem_singleton] at hl
        subst hl
        exact ⟨JSVal.num 1, rfl⟩)
      rfl
    exact h
  · exact sequential_strategies_stop_at_first_failure.2.1
      [⟨1, fun _ => PResult.promise 0 (Except.ok (JSVal.num 5))⟩]
      ⟨2, fun _ => PResult.syncThrow (JSVal.str "c")⟩
      [⟨3, fun _ => PResult.promise 0 (Except.ok (JSVal.num 3))⟩] [] (JSVal.str "c")
      [1] (JSVal.num 5) rfl rfl
  · exact sequential_strategies_stop_at_first_failure.2.2
      [⟨3, fun _ => PResult.promise 0 (Except.ok (JSVal.num 3))⟩,
       ⟨2, fun _ => PResult.syncThrow (JSVal.str "d")⟩,
       ⟨1, fun _ => PResult.promise 0 (Except.ok (JSVal.num 5))⟩]
      [⟨1, fun _ => PResult.promise 0 (Except.ok (JSVal.num 5))⟩]
      ⟨2, fun _ => PResult.syncThrow (JSVal.str "d")⟩
      [⟨3, fun _ => PResult.promise 0 (Except.ok (JSVal.num 3))⟩] [] (JSVal.str "d")
      [1] (JSVal.num 5) rfl rfl rfl

/-- C2 counterexample: `3/2` is a non-integer number `>= 1`; the claim says
`setConcurrency` must leave the gate unchanged for it, but the guard in
the source checks only `typeof concurrency === "number" && concurrency
>= 1`, so the call replaces the gate (the non-integer capacity is handed
on to the external gate constructor). -/
theorem setConcurrency_noninteger_installs_gate :
    (¬ ∃ k : ℤ, (3 / 2 : ℚ) = (k : ℚ)) ∧
    setConcurrency { limiter := none } (some (3 / 2)) = { limiter := some (3 / 2) } := by
  constructor
  · rintro ⟨k, hk⟩
    have h2 : (3 : ℚ) = 2 * (k : ℚ) := by
      field_simp at hk
      linarith
    have h3 : (3 : ℤ) = 2 * k := by exact_mod_cast h2
    omega
  · rw [setConcurrency]
    norm_num

/-- C2 amended: `setConcurrency` installs or replaces the gate exactly when
the argument is a number `>= 1` — integrality is not required; for a
non-number or a number `< 1` the call is a silent no-op leaving the gate
unchanged; the constructor applies the same rule to a fresh instance. -/
theorem setConcurrency_guard_characterization :
    (∀ (st : EmitterCfg) (q : ℚ), 1 ≤ q →
        setConcurrency st (some q) = { limiter := some q }) ∧
    (∀ (st : EmitterCfg) (q : ℚ), ¬ 1 ≤ q → setConcurrency st (some q) = st) ∧
    (∀ st : EmitterCfg, setConcurrency st none = st) ∧
    (∀ c : Option ℚ, mkEmitter c = setConcurrency { limiter := none } c) := by
  refine ⟨?_, ?_, fun _ => rfl, fun _ => rfl⟩
  · intro st q h
    rw [setConcurrency]
    simp [h]
  · intro st q h
    rw [setConcurrency]
    simp [h]

/-- C2 witness: `3/2 >= 1` installs the gate on a fresh instance; `1/2 < 1`
leaves an installed gate unchanged. -/
theorem setConcurrency_guard_witness :
    setConcurrency { limiter := none } (some (3 / 2)) = { limiter := some (3 / 2) } ∧
    setConcurrency { limiter := some 2 } (some (1 / 2)) = { limiter := some 2 } :=
  ⟨setConcurrency_guard_characterization.1 _ _ (by norm_num),
   setConcurrency_guard_characterization.2.1 _ _ (by norm_num)⟩

/-- C9: once a gate is installed, no sequence of `setConcurrency` calls can
remove it: every later call either replaces the gate (argument a number
`>= 1`) or leaves it in place, so the limiter never returns to `none`. -/
theorem setConcurrency_gate_never_removed :
    ∀ (cs : List (Option ℚ)) (st : EmitterCfg), st.limiter ≠ none →
      (cs.foldl setConcurrency st).limiter ≠ none := by
  intro cs
  induction cs with
  | nil => intro st h; exact h
  | cons c cs ih =>
    intro st h
    rw [List.foldl_cons]
    apply ih
    cases c with
    | none => exact h
    | some q =>
      rw [setConcurrency]
      by_cases h1 : 1 ≤ q
      · simp [h1]
      · simp only [h1, if_false]
        exact h

/-- C9 witness: an instance constructed with capacity 2, hit with a
non-number, a replacement, an invalid number and another non-number,
still has a gate installed. -/
theorem setConcurrency_gate_never_removed_witness :
    (([none, some 5, some (1 / 2), none] : List (Option ℚ)).foldl setConcurrency
      (mkEmitter (some 2))).limiter ≠ none :=
  setConcurrency_gate_never_removed _ _
    (by norm_num [mkEmitter, setConcurrency]; simp)

/-! ### Association-list lemmas for the `onceMap` -/

theorem mapGet_mapSet (m : List (Ref × Nat)) (r : Ref) (w : Nat) (r' : Ref) :
    mapGet (mapSet m r w) r' = if r = r' then some w else mapGet m r' := by
  induction m with
  | nil => simp [mapSet, mapGet]
  | cons p rest ih =>
    by_cases hp : p.1 = r
    · rw [mapSet, if_pos hp, mapGet]
      by_cases h : r = r'
      · rw [if_pos h, if_pos h]
      · rw [if_neg h, if_neg h, mapGet, if_neg fun hc => h (hp.symm.trans hc)]
    · rw [mapSet, if_neg hp, mapGet]
      by_cases hq : p.1 = r'
      · rw [if_pos hq, if_neg fun h => hp (hq.trans h.symm), mapGet, if_pos hq]
      · rw [if_neg hq, ih]
        by_cases h : r = r'
        · rw [if_pos h, if_pos h]
        · rw [if_neg h, if_neg h, mapGet, if_neg hq]

theorem mapGet_eq_none_of_not_mem (m : List (Ref × Nat)) (r : Ref)
    (h : r ∉ m.map Prod.fst) : mapGet m r = none := by
  induction m with
  | nil => rfl
  | cons p rest ih =>
    rw [List.map_cons, List.mem_cons] at h
    push_neg at h
    rw [mapGet]
    rw [if_neg fun hc => h.1 hc.symm]
    exact ih h.2

theorem mapGet_mapDel (m : List (Ref × Nat)) (r r' : Ref)
    (hnd : (m.map Prod.fst).Nodup) :
    mapGet (mapDel m r) r' = if r = r' then none else mapGet m r' := by
  induction m with
  | nil => simp [mapDel, mapGet]
  | cons p rest ih =>
    rw [List.map_cons, List.nodup_cons] at hnd
    by_cases hp : p.1 = r
    · rw [mapDel, if_pos hp]
      by_cases h : r = r'
      · rw [if_pos h]
        exact mapGet_eq_none_of_not_mem rest r' (h ▸ hp ▸ hnd.1)
      · rw [if_neg h, mapGet, if_neg fun hc => h (hp ▸ hc)]
    · rw [mapDel, if_neg hp]
      by_cases h : r = r'
      · rw [if_pos h, mapGet, if_neg fun hc => hp (h ▸ hc), ih hnd.2, if_pos h]
      · rw [if_neg h, mapGet, mapGet]
        by_cases hq : p.1 = r'
        · rw [if_pos hq, if_pos hq]
        · rw [if_neg hq, if_neg hq, ih hnd.2, if_neg h]

theorem mem_keys_mapSet (m : List (Ref × Nat)) (r : Ref) (w : Nat) (a : Ref) :
    a ∈ (mapSet m r w).map Prod.fst ↔ a ∈ m.map Prod.fst ∨ a = r := by
  induction m with
  | nil => simp [mapSet]
  | cons p rest ih =>
    by_cases hp : p.1 = r
    · rw [mapSet, if_pos hp, List.map_cons, List.map_cons, List.mem_cons, List.mem_cons, hp]
      tauto
    · rw [mapSet, if_neg hp, List.map_cons, List.map_cons, List.mem_cons, List.mem_cons, ih]
      tauto

theorem nodup_keys_mapSet (m : List (Ref × Nat)) (r : Ref) (w : Nat)
    (hnd : (m.map Prod.fst).Nodup) : ((mapSet m r w).map Prod.fst).Nodup := by
  induction m with
  | nil => simp [mapSet]
  | cons p rest ih =>
    rw [List.map_cons, List.nodup_cons] at hnd
    by_cases hp : p.1 = r
    · rw [mapSet, if_pos hp, List.map_cons, List.nodup_cons]
      exact ⟨hp ▸ hnd.1, hnd.2⟩
    · rw [mapSet, if_neg hp, List.map_cons, List.nodup_cons]
      refine ⟨fun hc => ?_, ih hnd.2⟩
      rcases (mem_keys_mapSet rest r w p.1).mp hc with hin | heq
      · exact hnd.1 hin
      · exact hp heq

theorem mem_mapSet (m : List (Ref × Nat)) (r : Ref) (w : Nat) (q : Ref × Nat)
    (h : q ∈ mapSet m r w) : q ∈ m ∨ q = (r, w) := by
  induction m with
  | nil =>
    rw [mapSet] at h
    right
    exact List.mem_singleton.mp h
  | cons p rest ih =>
    by_cases hp : p.1 = r
    · rw [mapSet, if_pos hp, List.mem_cons] at h
      rcases h with h | h
      · right; exact h
      · left; exact List.mem_cons_of_mem _ h
    · rw [mapSet, if_neg hp, List.mem_cons] at h
      rcases h with h | h
      · left; exact h ▸ List.mem_cons_self _ _
      · rcases ih h with h2 | h2
        · left; exact List.mem_cons_of_mem _ h2
        · right; exact h2

theorem mem_mapDel (m : List (Ref × Nat)) (r : Ref) (q : Ref × Nat)
    (h : q ∈ mapDel m r) : q ∈ m := by
  induction m with
  | nil =>
    rw [mapDel] at h
    exact absurd h (List.not_mem_nil q)
  | cons p rest ih =>
    by_cases hp : p.1 = r
    · rw [mapDel, if_pos hp] at h
      exact List.mem_cons_of_mem _ h
    · rw [mapDel, if_neg hp, List.mem_cons] at h
      rcases h with h | h
      · exact h ▸ List.mem_cons_self _ _
      · exact List.mem_cons_of_mem _ (ih h)

theorem nodup_keys_mapDel (m : List (Ref × Nat)) (r : Ref)
    (hnd : (m.map Prod.fst).Nodup) : ((mapDel m r).map Prod.fst).Nodup := by
  induction m with
  | nil => simp [mapDel]
  | cons p rest ih =>
    rw [List.map_cons, List.nodup_cons] at hnd
    by_cases hp : p.1 = r
    · rw [mapDel, if_pos hp]
      exact hnd.2
    · rw [mapDel, if_neg hp, List.map_cons, List.nodup_cons]
      refine ⟨fun hc => ?_, ih hnd.2⟩
      rw [List.mem_map] at hc
      obtain ⟨q, hq, hq1⟩ := hc
      exact hnd.1 (hq1 ▸ List.mem_map_of_mem Prod.fst (mem_mapDel rest r q hq))

theorem mapGet_wrapper_none (m : List (Ref × Nat)) (w : Nat)
    (hus : ∀ p ∈ m, ∃ n, p.1 = Ref.user n) : mapGet m (Ref.wrapper w) = none := by
  induction m with
  | nil => rfl
  | cons p rest ih =>
    obtain ⟨n, hn⟩ := hus p (List.mem_cons_self _ _)
    rw [mapGet, if_neg (by rw [hn]; intro hc; cases hc)]
    exact ih fun q hq => hus q (List.mem_cons_of_mem _ hq)

theorem execOp_onceMap_step (st : EmState) (op : EOp) (u : Nat)
    (hnd : (st.onceMap.map Prod.fst).Nodup)
    (hus : ∀ p ∈ st.onceMap, ∃ n, p.1 = Ref.user n) :
    (mapGet (execOp st op).onceMap (Ref.user u)).isSome
      = specStep u (mapGet st.onceMap (Ref.user u)).isSome op := by
  cases op with
  | plain e u' => rfl
  | once e u' =>
    show (mapGet (mapSet st.onceMap (Ref.user u') st.nextWrapper) (Ref.user u)).isSome = _
    rw [mapGet_mapSet]
    by_cases h : u' = u <;> simp [specStep, h]
  | sub e u' o =>
    cases o with
    | false => rfl
    | true =>
      show (mapGet (mapSet st.onceMap (Ref.user u') st.nextWrapper) (Ref.user u)).isSome = _
      rw [mapGet_mapSet]
      by_cases h : u' = u <;> simp [specStep, h]
  | remove e u' =>
    cases hg : mapGet st.onceMap (Ref.user u') with
    | none =>
      have hmap : (removeListener st e (Ref.user u')).onceMap = st.onceMap := by
        rw [removeListener, hg]
      show (mapGet (removeListener st e (Ref.user u')).onceMap (Ref.user u)).isSome = _
      rw [hmap]
      by_cases h : u' = u
      · subst h
        rw [hg]
        simp [specStep]
      · simp [specStep, h]
    | some w =>
      have hmap : (removeListener st e (Ref.user u')).onceMap
          = mapDel st.onceMap (Ref.user u') := by
        rw [removeListener, hg]
      show (mapGet (removeListener st e (Ref.user u')).onceMap (Ref.user u)).isSome = _
      rw [hmap, mapGet_mapDel _ _ _ hnd]
      by_cases h : u' = u <;> simp [specStep, h]
  | fire e w =>
    have hw : mapGet st.onceMap (Ref.wrapper w) = none := mapGet_wrapper_none _ _ hus
    have hmap : (fireWrapper st e w).onceMap = st.onceMap := by
      have h1 : (removeListener st e (Ref.wrapper w)).onceMap = st.onceMap := by
        rw [removeListener, hw]
      simp only [fireWrapper]
      split
      · exact h1
      · exact h1
    show (mapGet (fireWrapper st e w).onceMap (Ref.user u)).isSome = _
    rw [hmap]
    rfl

theorem execOp_preserves_onceMap_inv (st : EmState) (op : EOp)
    (hnd : (st.onceMap.map Prod.fst).Nodup)
    (hus : ∀ p ∈ st.onceMap, ∃ n, p.1 = Ref.user n) :
    ((execOp st op).onceMap.map Prod.fst).Nodup ∧
      ∀ p ∈ (execOp st op).onceMap, ∃ n, p.1 = Ref.user n := by
  cases op with
  | plain e u' => exact ⟨hnd, hus⟩
  | once e u' =>
    refine ⟨nodup_keys_mapSet _ _ _ hnd, fun p hp => ?_⟩
    rcases mem_mapSet _ _ _ _ hp with h | h
    · exact hus p h
    · exact ⟨u', by rw [h]⟩
  | sub e u' o =>
    cases o with
    | false => exact ⟨hnd, hus⟩
    | true =>
      refine ⟨nodup_keys_mapSet _ _ _ hnd, fun p hp => ?_⟩
      rcases mem_mapSet _ _ _ _ hp with h | h
      · exact hus p h
      · exact ⟨u', by rw [h]⟩
  | remove e u' =>
    cases hg : mapGet st.onceMap (Ref.user u') with
    | none =>
      have hmap : (execOp st (EOp.remove e u')).onceMap = st.onceMap := by
        show (removeListener st e (Ref.user u')).onceMap = st.onceMap
        rw [removeListener, hg]
      rw [hmap]
      exact ⟨hnd, hus⟩
    | some w =>
      have hmap : (execOp st (EOp.remove e u')).onceMap
          = mapDel st.onceMap (Ref.user u') := by
        show (removeListener st e (Ref.user u')).onceMap = _
        rw [removeListener, hg]
      rw [hmap]
      exact ⟨nodup_keys_mapDel _ _ hnd, fun p hp => hus p (mem_mapDel _ _ _ hp)⟩
  | fire e w =>
    have hw : mapGet st.onceMap (Ref.wrapper w) = none := mapGet_wrapper_none _ _ hus
    have hmap : (execOp st (EOp.fire e w)).onceMap = st.onceMap := by
      show (fireWrapper st e w).onceMap = st.onceMap
      have h1 : (removeListener st e (Ref.wrapper w)).onceMap = st.onceMap := by
        rw [removeListener, hw]
      simp only [fireWrapper]
      split
      · exact h1
      · exact h1
    rw [hmap]
    exact ⟨hnd, hus⟩

theorem execOps_onceMap_fold (ops : List EOp) (st : EmState) (u : Nat)
    (hnd : (st.onceMap.map Prod.fst).Nodup)
    (hus : ∀ p ∈ st.onceMap, ∃ n, p.1 = Ref.user n) :
    (mapGet (ops.foldl execOp st).onceMap (Ref.user u)).isSome
      = ops.foldl (specStep u) (mapGet st.onceMap (Ref.user u)).isSome := by
  induction ops generalizing st with
  | nil => rfl
  | cons op rest ih =>
    rw [List.foldl_cons, List.foldl_cons]
    obtain ⟨hnd', hus'⟩ := execOp_preserves_onceMap_inv st op hnd hus
    rw [ih (execOp st op) hnd' hus', execOp_onceMap_step st op u hnd hus]

/-- C1 counterexample: register listener `user 7` via `once` (allocating
wrapper 0) and fire the wrapper.  The wrapper removes itself from the
registry (registry empty) and the fired flag is set, yet the `onceMap`
entry for the original listener is still present — the wrapper's
self-removal calls `removeListener` with the *wrapper* reference, which
is not an `onceMap` key, so the claimed "entry gone after firing" part of
the invariant is false on the code. -/
theorem once_fired_keeps_onceMap_entry :
    (execOps [EOp.once 0 7, EOp.fire 0 0]).registry = [] ∧
    (execOps [EOp.once 0 7, EOp.fire 0 0]).fired = [0] ∧
    mapGet (execOps [EOp.once 0 7, EOp.fire 0 0]).onceMap (Ref.user 7) = some 0 :=
  ⟨rfl, rfl, rfl⟩

/-- C1 amended: over every client operation sequence, a listener reference
has an `onceMap` entry if and only if it was registered via `once` (or
`subscribe` with once = true) and has not since been removed via
`removeListener` called with that original reference — firing the wrapper
removes the wrapper from the registry but leaves the mapping entry in
place; and an explicit `removeListener` on a mapped reference deletes the
mapping entry and removes the *wrapper* (not the original) from the
registry. -/
theorem onceMap_entry_iff_registered_not_removed :
    (∀ (ops : List EOp) (u : Nat),
        (mapGet (execOps ops).onceMap (Ref.user u)).isSome = specOnceEntry ops u) ∧
    (∀ (st : EmState) (e : Nat) (r : Ref) (w : Nat),
        mapGet st.onceMap r = some w →
        (removeListener st e r).onceMap = mapDel st.onceMap r ∧
        (removeListener st e r).registry
          = removeLastOcc st.registry e (Ref.wrapper w)) := by
  constructor
  · intro ops u
    have h := execOps_onceMap_fold ops emptyEmState u (by simp [emptyEmState])
      (by intro p hp; simp [emptyEmState] at hp)
    rw [execOps, h]
    rfl
  · intro st e r w h
    rw [removeListener, h]
    exact ⟨rfl, rfl⟩

/-- C1 witness: on a state holding once-registration `user 7 ↦ wrapper 0`,
an explicit `removeListener` with the original reference deletes the
mapping entry and removes the wrapper from the registry. -/
theorem onceMap_entry_iff_witness :
    (removeListener ⟨[(0, Ref.wrapper 0)], [(Ref.user 7, 0)], [], 1⟩ 0 (Ref.user 7)).onceMap
      = mapDel [(Ref.user 7, 0)] (Ref.user 7) ∧
    (removeListener ⟨[(0, Ref.wrapper 0)], [(Ref.user 7, 0)], [], 1⟩ 0 (Ref.user 7)).registry
      = removeLastOcc [(0, Ref.wrapper 0)] 0 (Ref.wrapper 0) :=
  onceMap_entry_iff_registered_not_removed.2 _ 0 (Ref.user 7) 0 rfl

/-- Sanity check mirroring the suite's reduction test: three squaring
listeners threading `[keys, value]`, from `[[], 2]`, give `[[1,2,3], 256]`
left-to-right and `[[3,2,1], 256]` right-to-left. -/
theorem reduce_square_matches_suite :
    emitReduce
      [⟨1, fun as => match as with
        | [JSVal.arr ks, JSVal.num v] =>
          PResult.promise 0 (Except.ok (JSVal.arr [JSVal.arr (ks ++ [JSVal.num 1]), JSVal.num (v * v)]))
        | _ => PResult.syncThrow JSVal.undef⟩,
       ⟨2, fun as => match as with
        | [JSVal.arr ks, JSVal.num v] =>
          PResult.promise 0 (Except.ok (JSVal.arr [JSVal.arr (ks ++ [JSVal.num 2]), JSVal.num (v * v)]))
        | _ => PResult.syncThrow JSVal.undef⟩,
       ⟨3, fun as => match as with
        | [JSVal.arr ks, JSVal.num v] =>
          PResult.promise 0 (Except.ok (JSVal.arr [JSVal.arr (ks ++ [JSVal.num 3]), JSVal.num (v * v)]))
        | _ => PResult.syncThrow JSVal.undef⟩]
      [JSVal.arr [], JSVal.num 2]
      = Except.ok (JSVal.arr [JSVal.arr [JSVal.num 1, JSVal.num 2, JSVal.num 3], JSVal.num 256]) ∧
    emitReduceRight
      [⟨1, fun as => match as with
        | [JSVal.arr ks, JSVal.num v] =>
          PResult.promise 0 (Except.ok (JSVal.arr [JSVal.arr (ks ++ [JSVal.num 1]), JSVal.num (v * v)]))
        | _ => PResult.syncThrow JSVal.undef⟩,
       ⟨2, fun as => match as with
        | [JSVal.arr ks, JSVal.num v] =>
          PResult.promise 0 (Except.ok (JSVal.arr [JSVal.arr (ks ++ [JSVal.num 2]), JSVal.num (v * v)]))
        | _ => PResult.syncThrow JSVal.undef⟩,
       ⟨3, fun as => match as with
        | [JSVal.arr ks, JSVal.num v] =>
          PResult.promise 0 (Except.ok (JSVal.arr [JSVal.arr (ks ++ [JSVal.num 3]), JSVal.num (v * v)]))
        | _ => PResult.syncThrow JSVal.undef⟩]
      [JSVal.arr [], JSVal.num 2]
      = Except.ok (JSVal.arr [JSVal.arr [JSVal.num 3, JSVal.num 2, JSVal.num 1], JSVal.num 256]) :=
  ⟨rfl, rfl⟩

/-- Sanity check mirroring the suite's non-array accumulator test: a
listener returning the bare value `1` feeds `[1]` as the next listener's
argument list; the final result is `[1]`. -/
theorem reduce_nonarray_matches_suite :
    emitReduce
      [⟨1, fun _ => PResult.promise 0 (Except.ok (JSVal.num 1))⟩,
       ⟨2, fun as => PResult.promise 0 (Except.ok (JSVal.arr as))⟩] []
      = Except.ok (JSVal.arr [JSVal.num 1]) := rfl

/-- Sanity check mirroring the suite's parallel error tests: among an
immediately-thrown error and an immediately-rejected promise (both
settled at time 0), the earlier-registered failure wins the race; a
synchronous throw is treated like an immediate rejection. -/
theorem parallel_first_error_matches_suite :
    emitParallel
      [⟨1, fun as => PResult.promise 0 (Except.ok (JSVal.arr as))⟩,
       ⟨2, fun _ => PResult.promise 0 (Except.error (JSVal.str "beep"))⟩,
       ⟨3, fun _ => PResult.promise 0 (Except.error (JSVal.str "boop"))⟩] []
      = Except.error (JSVal.str "beep") ∧
    emitParallel
      [⟨1, fun as => PResult.promise 0 (Except.ok (JSVal.arr as))⟩,
       ⟨2, fun _ => PResult.syncThrow (JSVal.str "boop")⟩,
       ⟨3, fun _ => PResult.promise 0 (Except.error (JSVal.str "beep"))⟩] []
      = Except.error (JSVal.str "boop") :=
  ⟨rfl, rfl⟩
